import Mathlib

/-!
Shallow embedding of the Git simulation engine of the GitJourney learning
platform (src/utils/gitLogic.ts) together with the command-sequence runner
of the application shell (src/App.tsx, handleCommand).

Conventions of the embedding:
* JavaScript numbers holding timestamps are embedded as Int.
* The uuid-based short-id generator and Date.now() are external sources of
  nondeterminism; they are embedded as an explicit environment Env with a
  clock value and a stream of generated ids.  Distinct call sites of the
  generator within one command consume distinct stream positions.
* JavaScript undefined flowing through string-typed slots is embedded as
  Option String; where the source program renders undefined into a template
  string, the embedding uses the literal text "undefined".
* The two while-loops of the rebase handler and the breadth-first loop of
  isAncestor are embedded with explicit fuel; the fuel bounds are chosen so
  that on every state on which the JavaScript loops terminate the embedded
  functions compute the same value (for isAncestor this sufficiency is
  proved below).
* A field access on undefined, which raises a TypeError in JavaScript, is
  embedded as Except.error; all normal returns are Except.ok.
* Locale-dependent date rendering inside git log output is abstracted to
  the decimal rendering of the timestamp.
-/

structure Commit where
  id : String
  message : String
  parentId : Option String
  secondParentId : Option String
  timestamp : Int
  author : String
deriving DecidableEq, Repr

structure Branch where
  name : String
  commitId : String
deriving DecidableEq, Repr

structure Tag where
  name : String
  commitId : String
deriving DecidableEq, Repr

/-- The tagged union head of gitLogic.ts: type branch or type commit. -/
inductive HeadRef where
  | branch (ref : String)
  | commit (ref : String)
deriving DecidableEq, Repr

structure GitState where
  commits : List Commit
  branches : List Branch
  tags : List Tag
  head : HeadRef
deriving DecidableEq, Repr

structure EngineResult where
  newState : GitState
  output : String
  success : Bool
deriving DecidableEq, Repr

/-- External nondeterminism: the clock (Date.now) and the uuid-derived
short-id stream (generateShortId). -/
structure Env where
  now : Int
  ids : Nat → String

/-- INITIAL_STATE of gitLogic.ts; the module-load Date.now() of the root
commit is abstracted to 0. -/
def INITIAL_STATE : GitState :=
  ⟨[⟨"init", "Initial commit", none, none, 0, "User"⟩],
   [⟨"main", "init"⟩], [], HeadRef.branch "main"⟩

def getHeadCommitId (state : GitState) : String :=
  match state.head with
  | HeadRef.commit r => r
  | HeadRef.branch r =>
    match state.branches.find? (fun b => b.name == r) with
    | some b => b.commitId
    | none => "init"

/-- String.prototype.startsWith over the character lists. -/
def strStartsWith (s p : String) : Bool := p.toList.isPrefixOf s.toList

/-- String.prototype.trim over the character lists. -/
def jsTrim (s : String) : String :=
  String.mk (((s.toList.dropWhile (fun c => c.isWhitespace)).reverse.dropWhile
    (fun c => c.isWhitespace)).reverse)

/-- Splitting at every whitespace character, keeping empty pieces; together
with the empty-piece filter of parseCommand this coincides with the
whitespace-run regex split of the source. -/
def splitWsAux : List Char → List Char → List String
  | [], acc => [String.mk acc.reverse]
  | c :: cs, acc =>
    if c.isWhitespace then String.mk acc.reverse :: splitWsAux cs []
    else splitWsAux cs (c :: acc)

/-- First occurrence of a literal separator: the piece before it and the
remainder after it, or none when the separator does not occur. -/
def breakOnSep (sep : List Char) : List Char → Option (List Char × List Char)
  | [] => none
  | c :: cs =>
    if sep.isPrefixOf (c :: cs) then some ([], (c :: cs).drop sep.length)
    else
      match breakOnSep sep cs with
      | some (pre, post) => some (c :: pre, post)
      | none => none

/-- String.prototype.split on a nonempty literal separator, with the input
length as fuel (each found separator consumes at least one character). -/
def splitOnFuel (sep : List Char) : Nat → List Char → List (List Char)
  | 0, cs => [cs]
  | n + 1, cs =>
    match breakOnSep sep cs with
    | none => [cs]
    | some (pre, post) => pre :: splitOnFuel sep n post

def jsSplitOnStr (sep : String) (s : String) : List String :=
  (splitOnFuel sep.toList (s.toList.length + 1) s.toList).map String.mk

/-- resolveRef of gitLogic.ts: branch name, then tag name, then commit id
match by equality-or-starts-with (the source predicate is
c.id === ref || c.id.startsWith(ref): the first commit in list order whose
id has ref as a prefix wins, with no uniqueness requirement), then the
literal HEAD. -/
def resolveRef (state : GitState) (ref : String) : Option String :=
  if ref = "" then none
  else
    match state.branches.find? (fun b => b.name == ref) with
    | some b => some b.commitId
    | none =>
      match state.tags.find? (fun t => t.name == ref) with
      | some t => some t.commitId
      | none =>
        match state.commits.find? (fun c => c.id == ref || strStartsWith c.id ref) with
        | some c => some c.id
        | none => if ref = "HEAD" then some (getHeadCommitId state) else none

/-- Math.max over a nonempty list; the empty case is unused (the source
guards with commits.length > 0). -/
def listMaxInt : List Int → Int
  | [] => 0
  | [x] => x
  | x :: y :: rest => max x (listMaxInt (y :: rest))

def getNextTimestamp (state : GitState) (env : Env) : Int :=
  let lastTime := match state.commits with
    | [] => 0
    | l => listMaxInt (l.map (fun c => c.timestamp))
  max env.now (lastTime + 2000)

/-- One breadth-first step loop of isAncestor, with fuel.  The queue is a
FIFO list; parents of a found commit are appended at the end in source
order (parentId then secondParentId).  Returns none exactly when the fuel
runs out before the loop finishes. -/
def isAncestorAux (commits : List Commit) (ancestorId : String) :
    Nat → List String → List String → Option Bool
  | 0, _, _ => none
  | _ + 1, [], _ => some false
  | fuel + 1, curr :: queue, visited =>
    if curr ∈ visited then isAncestorAux commits ancestorId fuel queue visited
    else
      let visited' := curr :: visited
      if curr = ancestorId then some true
      else
        match commits.find? (fun c => c.id == curr) with
        | some c =>
          let ps := (match c.parentId with | some p => [p] | none => []) ++
                    (match c.secondParentId with | some p => [p] | none => [])
          isAncestorAux commits ancestorId fuel (queue ++ ps) visited'
        | none => isAncestorAux commits ancestorId fuel queue visited'

/-- All ids occurring as a parent edge of some commit. -/
def parentIdsOf (commits : List Commit) : List String :=
  commits.flatMap (fun c =>
    (match c.parentId with | some p => [p] | none => []) ++
    (match c.secondParentId with | some p => [p] | none => []))

/-- Fuel that provably suffices for the breadth-first walk starting at
descendantId (theorem c9_isAncestor_reflexive_and_total below), so the
embedded walk agrees with the unbounded source loop on every input. -/
def ancestorFuel (commits : List Commit) (descendantId : String) : Nat :=
  2 + 2 * ((descendantId :: parentIdsOf commits).dedup).length

/-- isAncestor of gitLogic.ts: reflexive pre-check, then the visited-set
guarded breadth-first walk backwards over both parent edges. -/
def isAncestor (state : GitState) (ancestorId descendantId : String) : Bool :=
  if ancestorId = descendantId then true
  else
    (isAncestorAux state.commits ancestorId
      (ancestorFuel state.commits descendantId) [descendantId] []).getD false

/-- A JavaScript truthiness filter for string-typed slots: undefined and
the empty string are both falsy. -/
def jsTruthy (s : Option String) : Option String :=
  match s with
  | some x => if x = "" then none else some x
  | none => none

/-- First index of a character in a list of characters (String.indexOf). -/
def firstIdx (c : Char) : List Char → Nat → Option Nat
  | [], _ => none
  | x :: xs, i => if x = c then some i else firstIdx c xs (i + 1)

/-- Last index of a character (String.lastIndexOf). -/
def lastIdx (c : Char) (cs : List Char) : Option Nat :=
  match firstIdx c cs.reverse 0 with
  | some i => some (cs.length - 1 - i)
  | none => none

/-- JavaScript String.substring: swaps its arguments when start exceeds
end, then takes the half-open range. -/
def jsSubstring (cs : List Char) (a b : Nat) : String :=
  let lo := min a b
  let hi := max a b
  String.mk ((cs.drop lo).take (hi - lo))

/-- JavaScript parseInt on a radix-10 token: optional sign, then leading
digits; NaN when no digit is found. -/
def jsParseInt (s : String) : Option Int :=
  let cs := s.toList
  let (neg, rest) := match cs with
    | '-' :: r => (true, r)
    | '+' :: r => (false, r)
    | r => (false, r)
  let digits := rest.takeWhile (fun c => c.isDigit)
  if digits = [] then none
  else
    let n : Nat := digits.foldl (fun a c => a * 10 + (c.toNat - 48)) 0
    some (if neg then -(n : Int) else (n : Int))

/-- parseInt(countStr) || 1 of the reset handler: NaN and 0 both fall back
to 1. -/
def jsParseIntOr1 (s : String) : Int :=
  match jsParseInt s with
  | some n => if n = 0 then 1 else n
  | none => 1

def headRefName : HeadRef → String
  | HeadRef.branch r => r
  | HeadRef.commit r => r

-- --- Command handlers, one per inline block of executeGitCommand ---

def gitInit : EngineResult :=
  ⟨INITIAL_STATE, "Initialized empty Git repository in /project/.git/", true⟩

def gitRemote (parts : List String) (state : GitState) : EngineResult :=
  if parts.get? 2 = some "add" then
    match jsTruthy (parts.get? 3), jsTruthy (parts.get? 4) with
    | some name, some url =>
      ⟨state, "Added remote '" ++ name ++ "' as '" ++ url ++ "'", true⟩
    | _, _ => ⟨state, "usage: git remote add <name> <url>", false⟩
  else if parts.get? 2 = some "-v" ∨ parts.get? 2 = some "get-url" then
    ⟨state, "origin  https://github.com/user/repo.git (fetch)\norigin  https://github.com/user/repo.git (push)", true⟩
  else ⟨state, "", true⟩

/-- Stable insertion into a list already sorted by descending timestamp;
equal timestamps keep their relative order, matching the stable
Array.prototype.sort. -/
def insertByTsDesc (c : Commit) : List Commit → List Commit
  | [] => [c]
  | x :: xs => if c.timestamp ≤ x.timestamp then x :: insertByTsDesc c xs else c :: x :: xs

def sortByTsDesc : List Commit → List Commit
  | [] => []
  | x :: xs => insertByTsDesc x (sortByTsDesc xs)

/-- git log.  The source sorts state.commits in place through
Array.prototype.sort before rendering, so the returned snapshot carries
the reordered commit list.  Locale time rendering is abstracted to the
decimal timestamp. -/
def gitLog (state : GitState) : EngineResult :=
  let sorted := sortByTsDesc state.commits
  let logOutput := String.intercalate "\n\n" (sorted.map (fun c =>
    "commit " ++ c.id ++ "\nAuthor: " ++ c.author ++ "\nDate: " ++
      toString c.timestamp ++ "\n\n    " ++ c.message))
  ⟨{ state with commits := sorted },
   (if logOutput = "" then "(no commits)" else logOutput), true⟩

def gitAdd (state : GitState) : EngineResult := ⟨state, "", true⟩

def gitClone (env : Env) : EngineResult :=
  ⟨⟨[⟨"c82a", "Initial public release", none, none, env.now - 10000, "Origin"⟩,
     ⟨"a12b", "Update README", some "c82a", none, env.now - 5000, "Origin"⟩],
    [⟨"main", "a12b"⟩, ⟨"origin/main", "a12b"⟩], [], HeadRef.branch "main"⟩,
   "Cloning into 'project'...\nRemote: Enumerating objects: 5, done.\nRemote: Total 5 (delta 0), reused 0 (delta 0)\nUnpacking objects: 100% (5/5), done.",
   true⟩

def gitFetch (env : Env) (state : GitState) : EngineResult :=
  match state.branches.find? (fun b => b.name == "origin/main") with
  | none => ⟨state, "No remote found", false⟩
  | some originBranch =>
    let newCommitId := env.ids 0
    let newCommit : Commit :=
      ⟨newCommitId, "Remote update", some originBranch.commitId, none,
       getNextTimestamp state env, "Teammate"⟩
    let newBranches := state.branches.map (fun b =>
      if b.name = "origin/main" then ⟨b.name, newCommitId⟩ else b)
    ⟨{ state with commits := state.commits ++ [newCommit], branches := newBranches },
     "From https://github.com/demo/repo\n   " ++ originBranch.commitId.take 4 ++
       ".." ++ newCommitId.take 4 ++ "  main       -> origin/main",
     true⟩

def pushRejectOutput (currentBranch : String) : String :=
  "! [rejected]        " ++ currentBranch ++ " -> " ++ currentBranch ++
    " (non-fast-forward)\nhint: Updates were rejected because the tip of your current branch is behind\nhint: its remote counterpart. Integrate the remote changes (e.g.\nhint: 'git pull ...') before pushing again."

def pushOkOutput (currentBranch tip : String) : String :=
  "Enumerating objects: 3, done.\nTo https://github.com/demo/repo.git\n   " ++
    tip.take 7 ++ ".." ++ tip.take 7 ++ "  " ++ currentBranch ++ " -> " ++ currentBranch

def gitPush (state : GitState) : EngineResult :=
  let currentBranch := headRefName state.head
  match state.head with
  | HeadRef.commit _ => ⟨state, "fatal: You are not currently on a branch.", false⟩
  | HeadRef.branch _ =>
    match state.branches.find? (fun b => b.name == currentBranch) with
    | none => ⟨state, "error", false⟩
    | some branch =>
      let remoteName := "origin/" ++ currentBranch
      let remoteBranch := state.branches.find? (fun b => b.name == remoteName)
      let reject := match remoteBranch with
        | some rb => !isAncestor state rb.commitId branch.commitId && rb.commitId != branch.commitId
        | none => false
      if reject then
        ⟨state, pushRejectOutput currentBranch, false⟩
      else
        let newBranches := state.branches.filter (fun b => b.name != remoteName) ++
          [⟨remoteName, branch.commitId⟩]
        ⟨{ state with branches := newBranches },
         pushOkOutput currentBranch branch.commitId, true⟩

/-- git commit.  The source calls the id generator when building the
default message and again for the commit id; the embedding draws the
commit id from stream position 0 and the fallback message token from
position 1. -/
def gitCommit (env : Env) (parts : List String) (state : GitState) : EngineResult :=
  let fullCmd := String.intercalate " " parts
  let chars := fullCmd.toList
  let quoteStart := firstIdx '"' chars 0
  let quoteEnd := lastIdx '"' chars
  if parts.contains "--amend" then
    let headId := getHeadCommitId state
    match state.commits.find? (fun c => c.id == headId) with
    | none => ⟨state, "Nothing to amend", false⟩
    | some oldCommit =>
      let newMessage :=
        if parts.contains "-m" then
          match quoteStart, quoteEnd with
          | some qs, some qe => jsSubstring chars (qs + 1) qe
          | _, _ => oldCommit.message
        else oldCommit.message
      let updatedCommits := state.commits.map (fun c =>
        if c.id = headId then { c with message := newMessage, timestamp := env.now } else c)
      ⟨{ state with commits := updatedCommits },
       "[detached HEAD] " ++ headId ++ " " ++ newMessage, true⟩
  else
    let message :=
      match quoteStart, quoteEnd with
      | some qs, some qe =>
        if qs < qe then jsSubstring chars (qs + 1) qe else "Update " ++ env.ids 1
      | _, _ => "Update " ++ env.ids 1
    let currentHeadId := getHeadCommitId state
    let newCommit : Commit :=
      ⟨env.ids 0, message, some currentHeadId, none, getNextTimestamp state env, "User"⟩
    match state.head with
    | HeadRef.commit _ =>
      ⟨{ state with commits := state.commits ++ [newCommit],
                    head := HeadRef.commit newCommit.id },
       "[detached HEAD] " ++ newCommit.id ++ " " ++ message, true⟩
    | HeadRef.branch r =>
      let newBranches := state.branches.map (fun b =>
        if b.name = r then ⟨b.name, newCommit.id⟩ else b)
      ⟨{ state with commits := state.commits ++ [newCommit], branches := newBranches },
       "[" ++ r ++ "] " ++ newCommit.id ++ " " ++ message, true⟩

/-- git branch.  The -M rename path performs no name-uniqueness check; a
missing new name (undefined in the source) is embedded as the text
"undefined". -/
def gitBranch (parts : List String) (state : GitState) : EngineResult :=
  if parts.get? 2 = some "-M" then
    let newName := (parts.get? 3).getD "undefined"
    let currentRef := headRefName state.head
    match state.head with
    | HeadRef.commit _ => ⟨state, "Must be on a branch to rename", false⟩
    | HeadRef.branch _ =>
      let newBranches := state.branches.map (fun b =>
        if b.name = currentRef then ⟨newName, b.commitId⟩ else b)
      ⟨{ state with branches := newBranches, head := HeadRef.branch newName },
       "Renamed branch to '" ++ newName ++ "'", true⟩
  else
    match jsTruthy (parts.get? 2) with
    | none => ⟨state, "Branch name required", false⟩
    | some branchName =>
      match state.branches.find? (fun b => b.name == branchName) with
      | some _ =>
        ⟨state, "fatal: A branch named '" ++ branchName ++ "' already exists.", false⟩
      | none =>
        match jsTruthy (parts.get? 3) with
        | some startPointRef =>
          match resolveRef state startPointRef with
          | none =>
            ⟨state, "fatal: Not a valid object name: '" ++ startPointRef ++ "'.", false⟩
          | some resolved =>
            ⟨{ state with branches := state.branches ++ [⟨branchName, resolved⟩] },
             "Created branch '" ++ branchName ++ "'", true⟩
        | none =>
          ⟨{ state with branches := state.branches ++ [⟨branchName, getHeadCommitId state⟩] },
           "Created branch '" ++ branchName ++ "'", true⟩

/-- git checkout / git switch. -/
def gitCheckout (parts : List String) (state : GitState) : EngineResult :=
  if parts.get? 2 = some "-b" ∨ parts.get? 2 = some "-c" then
    match jsTruthy (parts.get? 3) with
    | none => ⟨state, "Branch name required", false⟩
    | some branchName =>
      match state.branches.find? (fun b => b.name == branchName) with
      | some _ =>
        ⟨state, "fatal: A branch named '" ++ branchName ++ "' already exists.", false⟩
      | none =>
        ⟨{ state with branches := state.branches ++ [⟨branchName, getHeadCommitId state⟩],
                      head := HeadRef.branch branchName },
         "Switched to a new branch '" ++ branchName ++ "'", true⟩
  else
    match jsTruthy (parts.get? 2) with
    | none => ⟨state, "Target required", false⟩
    | some target =>
      match state.branches.find? (fun b => b.name == target) with
      | some branch =>
        ⟨{ state with head := HeadRef.branch branch.name },
         "Switched to branch '" ++ target ++ "'", true⟩
      | none =>
        match resolveRef state target with
        | some commitId =>
          ⟨{ state with head := HeadRef.commit commitId },
           "Note: switching to '" ++ target ++ "'. You are in 'detached HEAD' state.",
           true⟩
        | none =>
          ⟨state,
           "error: pathspec '" ++ target ++ "' did not match any file(s) known to git",
           false⟩

/-- git merge. -/
def gitMerge (env : Env) (parts : List String) (state : GitState) : EngineResult :=
  match jsTruthy (parts.get? 2) with
  | none => ⟨state, "Merge source required", false⟩
  | some sourceName =>
    match resolveRef state sourceName with
    | none => ⟨state, "Merge source '" ++ sourceName ++ "' not found", false⟩
    | some sourceCommitId =>
      match state.head with
      | HeadRef.commit _ => ⟨state, "You must be on a branch to merge", false⟩
      | HeadRef.branch headName =>
        let currentHeadId := getHeadCommitId state
        if sourceCommitId = currentHeadId then
          ⟨state, "Already up to date.", true⟩
        else if isAncestor state currentHeadId sourceCommitId then
          let newBranches := state.branches.map (fun b =>
            if b.name = headName then ⟨b.name, sourceCommitId⟩ else b)
          ⟨{ state with branches := newBranches },
           "Fast-forward merge: " ++ headName ++ " is now at " ++ sourceCommitId.take 7,
           true⟩
        else
          let newCommit : Commit :=
            ⟨env.ids 0, "Merge " ++ sourceName ++ " into " ++ headName,
             some currentHeadId, some sourceCommitId, getNextTimestamp state env, "User"⟩
          let newBranches := state.branches.map (fun b =>
            if b.name = headName then ⟨b.name, newCommit.id⟩ else b)
          ⟨{ state with commits := state.commits ++ [newCommit], branches := newBranches },
           "Merged " ++ sourceName ++ " into " ++ headName, true⟩

/-- The HEAD~N ancestor-count loop of the reset handler, with the count as
fuel; returns the remaining count and the landing commit id. -/
def resetWalk (commits : List Commit) : Nat → String → Nat × String
  | 0, curr => (0, curr)
  | n + 1, curr =>
    if curr = "" then (n + 1, curr)
    else
      match commits.find? (fun c => c.id == curr) with
      | some c =>
        match c.parentId with
        | some p => if p = "" then (n + 1, curr) else resetWalk commits n p
        | none => (n + 1, curr)
      | none => (n + 1, curr)

/-- git reset.  When the target token is absent the source calls
actualTarget.includes on undefined, a TypeError; that path is embedded as
Except.error. -/
def gitReset (parts : List String) (state : GitState) : Except Unit EngineResult :=
  let mode := parts.get? 2
  let targetRef := match jsTruthy (parts.get? 3) with
    | some t => some t
    | none => parts.get? 2
  let actualTarget1 := if mode ≠ some "--hard" ∧ parts.length = 3 then parts.get? 2 else targetRef
  let actualTarget := if mode = some "--hard" then parts.get? 3 else actualTarget1
  match state.head with
  | HeadRef.commit _ =>
    Except.ok ⟨state, "Resetting in detached HEAD is just checkout.", false⟩
  | HeadRef.branch headName =>
    let targetId0 := match actualTarget with
      | some t => resolveRef state t
      | none => none
    let finish := fun (tid : String) =>
      let newBranches := state.branches.map (fun b =>
        if b.name = headName then (⟨b.name, tid⟩ : Branch) else b)
      Except.ok (⟨{ state with branches := newBranches },
        "HEAD is now at " ++ tid.take 7, true⟩ : EngineResult)
    match targetId0 with
    | some tid => finish tid
    | none =>
      match actualTarget with
      | none => Except.error ()
      | some t =>
        let fail : Except Unit EngineResult :=
          Except.ok ⟨state, "Could not resolve " ++ t, false⟩
        if t.toList.contains '~' then
          let pieces := jsSplitOnStr "~" t
          let base := pieces.getD 0 ""
          let countStr := pieces.getD 1 ""
          if base = "HEAD" then
            let count0 := jsParseIntOr1 countStr
            if count0 > 0 then
              let walked := resetWalk state.commits count0.toNat (getHeadCommitId state)
              if walked.1 = 0 then finish walked.2 else fail
            else fail
          else fail
        else fail

/-- git revert. -/
def gitRevert (env : Env) (parts : List String) (state : GitState) : EngineResult :=
  let targetId := match jsTruthy (parts.get? 2) with
    | some t => resolveRef state t
    | none => none
  match targetId with
  | none =>
    ⟨state, "Bad revision '" ++ (parts.get? 2).getD "undefined" ++ "'", false⟩
  | some tid =>
    let currentHeadId := getHeadCommitId state
    let targetCommit := state.commits.find? (fun c => c.id == tid)
    let msg := "Revert \"" ++
      (match targetCommit with | some c => c.message | none => "undefined") ++ "\""
    let newCommit : Commit :=
      ⟨env.ids 0, msg, some currentHeadId, none, getNextTimestamp state env, "User"⟩
    let newBranches := match state.head with
      | HeadRef.branch r => state.branches.map (fun b =>
          if b.name = r then ⟨b.name, newCommit.id⟩ else b)
      | HeadRef.commit _ => state.branches
    ⟨{ state with commits := state.commits ++ [newCommit], branches := newBranches },
     "[" ++ headRefName state.head ++ "] " ++ newCommit.id ++ " " ++ msg, true⟩

/-- git cherry-pick. -/
def gitCherryPick (env : Env) (parts : List String) (state : GitState) : EngineResult :=
  let targetId := match jsTruthy (parts.get? 2) with
    | some t => resolveRef state t
    | none => none
  match targetId with
  | none => ⟨state, "Bad revision", false⟩
  | some tid =>
    match state.commits.find? (fun c => c.id == tid) with
    | none => ⟨state, "Commit not found", false⟩
    | some sourceCommit =>
      let currentHeadId := getHeadCommitId state
      let newCommit : Commit :=
        ⟨env.ids 0, sourceCommit.message, some currentHeadId, none,
         getNextTimestamp state env, "User"⟩
      let newBranches := match state.head with
        | HeadRef.branch r => state.branches.map (fun b =>
            if b.name = r then ⟨b.name, newCommit.id⟩ else b)
        | HeadRef.commit _ => state.branches
      ⟨{ state with commits := state.commits ++ [newCommit], branches := newBranches },
       "[" ++ headRefName state.head ++ "] " ++ newCommit.id ++ " " ++ newCommit.message,
       true⟩

/-- git tag: the handler reads only parts[2]; a ref argument in parts[3]
is ignored and the tag is always created at the current HEAD commit. -/
def gitTag (parts : List String) (state : GitState) : EngineResult :=
  match jsTruthy (parts.get? 2) with
  | none => ⟨state, "Tag name required", false⟩
  | some tagName =>
    ⟨{ state with tags := state.tags ++ [⟨tagName, getHeadCommitId state⟩] },
     "Created tag " ++ tagName, true⟩

/-- The getLineage while-loop of the rebase handler: the first-parent chain
from a start id, with fuel. -/
def lineageAux (commits : List Commit) : Nat → Option String → List String
  | 0, _ => []
  | _ + 1, none => []
  | n + 1, some curr =>
    if curr = "" then []
    else curr :: lineageAux commits n ((commits.find? (fun c => c.id == curr)).bind
      (fun c => c.parentId))

def getLineage (commits : List Commit) (start : String) : List String :=
  lineageAux commits (commits.length + 1) (some start)

/-- The commitsToMove while-loop of the rebase handler: walk the
first-parent chain from the tip until the base lineage is hit. -/
def movesAux (commits : List Commit) (baseLineage : List String) :
    Nat → Option String → List Commit
  | 0, _ => []
  | _ + 1, none => []
  | n + 1, some p =>
    if p = "" then []
    else if p ∈ baseLineage then []
    else
      match commits.find? (fun c => c.id == p) with
      | some c => c :: movesAux commits baseLineage n c.parentId
      | none => []

/-- The commits the rebase handler replays, oldest first (the source
collects tip-first and then reverses). -/
def commitsToMove (state : GitState) (baseId : String) : List Commit :=
  (movesAux state.commits (getLineage state.commits baseId)
    (state.commits.length + 1) (some (getHeadCommitId state))).reverse

/-- The replay for-loop of the rebase handler: the i-th copy draws id
stream position i, parents on the previous copy (the base for i = 0), and
stamps the shared pre-loop next-timestamp plus the running index. -/
def replayAux (ids : Nat → String) (t0 : Int) : List Commit → String → Nat → List Commit
  | [], _, _ => []
  | c :: rest, parent, i =>
    ⟨ids i, c.message, some parent, none, t0 + i, c.author⟩ ::
      replayAux ids t0 rest (ids i) (i + 1)

/-- git rebase. -/
def gitRebase (env : Env) (parts : List String) (state : GitState) : EngineResult :=
  let baseId := match jsTruthy (parts.get? 2) with
    | some b => resolveRef state b
    | none => none
  match baseId with
  | none => ⟨state, "Invalid base", false⟩
  | some baseId =>
    match state.head with
    | HeadRef.commit _ => ⟨state, "Must be on branch", false⟩
    | HeadRef.branch currentBranchName =>
      let moves := commitsToMove state baseId
      if moves = [] then ⟨state, "Already up to date.", true⟩
      else
        let t0 := getNextTimestamp state env
        let newCommits := replayAux env.ids t0 moves baseId 0
        let newParentId := match newCommits.getLast? with
          | some c => c.id
          | none => baseId
        let newBranches := state.branches.map (fun b =>
          if b.name = currentBranchName then ⟨b.name, newParentId⟩ else b)
        ⟨{ state with commits := state.commits ++ newCommits, branches := newBranches },
         "Rebased refs/heads/" ++ currentBranchName, true⟩

/-- git pull: fetch, then merge origin/main.  The inner merge re-invokes
the engine in the source; it is inlined here as a direct call with the id
stream shifted past the draw the fetch consumed. -/
def gitPull (env : Env) (state : GitState) : EngineResult :=
  let fetchRes := gitFetch env state
  if !fetchRes.success then fetchRes
  else
    let mergeEnv : Env := { env with ids := fun n => env.ids (n + 1) }
    let mergeRes := gitMerge mergeEnv ["git", "merge", "origin/main"] fetchRes.newState
    ⟨mergeRes.newState, fetchRes.output ++ "\n" ++ mergeRes.output, true⟩

/-- executeGitCommand of gitLogic.ts over the already-split token list,
with handler dispatch in source order.  The only Except.error path is the
reset TypeError. -/
def executeGitParts (env : Env) (parts : List String) (state : GitState) :
    Except Unit EngineResult :=
  let subCmd := parts.get? 1
  if parts.get? 0 ≠ some "git" then
    Except.ok ⟨state, "Command must start with 'git'", false⟩
  else if subCmd = some "init" then Except.ok gitInit
  else if subCmd = some "remote" then Except.ok (gitRemote parts state)
  else if subCmd = some "log" then Except.ok (gitLog state)
  else if subCmd = some "add" then Except.ok (gitAdd state)
  else if subCmd = some "clone" then Except.ok (gitClone env)
  else if subCmd = some "fetch" then Except.ok (gitFetch env state)
  else if subCmd = some "pull" then Except.ok (gitPull env state)
  else if subCmd = some "push" then Except.ok (gitPush state)
  else if subCmd = some "commit" then Except.ok (gitCommit env parts state)
  else if subCmd = some "branch" then Except.ok (gitBranch parts state)
  else if subCmd = some "checkout" ∨ subCmd = some "switch" then
    Except.ok (gitCheckout parts state)
  else if subCmd = some "merge" then Except.ok (gitMerge env parts state)
  else if subCmd = some "reset" then gitReset parts state
  else if subCmd = some "revert" then Except.ok (gitRevert env parts state)
  else if subCmd = some "cherry-pick" then Except.ok (gitCherryPick env parts state)
  else if subCmd = some "tag" then Except.ok (gitTag parts state)
  else if subCmd = some "rebase" then Except.ok (gitRebase env parts state)
  else
    Except.ok ⟨state, "git: '" ++ subCmd.getD "undefined" ++ "' is not a git command.",
      false⟩

/-- command.trim().split(whitespace-runs): splitting on single whitespace
characters and dropping empty pieces coincides with the regex split on a
trimmed input. -/
def parseCommand (command : String) : List String :=
  (splitWsAux (jsTrim command).toList []).filter (fun s => s ≠ "")

def executeGitCommand (env : Env) (command : String) (state : GitState) :
    Except Unit EngineResult :=
  executeGitParts env (parseCommand command) state

/-- The sequential loop of handleCommand in App.tsx: run the split
sub-commands left to right over an evolving snapshot, stop at the first
failure.  The published triple mirrors the setGitState updater: the
evolving snapshot variable is returned even when a sub-command failed. -/
def chainAux (envs : Nat → Env) :
    List String → Nat → GitState → List String → Except Unit (GitState × List String × Bool)
  | [], _, st, outs => Except.ok (st, outs, true)
  | c :: rest, i, st, outs =>
    match executeGitCommand (envs i) c st with
    | Except.error e => Except.error e
    | Except.ok r =>
      if r.success then chainAux envs rest (i + 1) r.newState (outs ++ [r.output])
      else Except.ok (st, outs ++ [r.output], false)

/-- handleCommand of App.tsx restricted to its engine-facing core: split on
the && separator, trim, drop empty pieces, then run the sequence. -/
def handleCommandChain (envs : Nat → Env) (cmd : String) (st : GitState) :
    Except Unit (GitState × List String × Bool) :=
  let commands := ((jsSplitOnStr "&&" cmd).map jsTrim).filter (fun c => c ≠ "")
  chainAux envs commands 0 st []

-- --- Shared concrete environment and helper lemmas ---

/-- A concrete environment for counterexamples and witnesses: clock at
100000, id stream id0, id1, id2, ... -/
def envA : Env := ⟨100000, fun n => "id" ++ toString n⟩

theorem getHeadCommitId_of_branch (st : GitState) (b : String) (br : Branch)
    (hhead : st.head = HeadRef.branch b)
    (hfind : st.branches.find? (fun x => x.name == b) = some br) :
    getHeadCommitId st = br.commitId := by
  simp [getHeadCommitId, hhead, hfind]

theorem find?_map_branchUpd (l : List Branch) (r : String) (v : String) :
    (l.map (fun b => if b.name = r then (⟨b.name, v⟩ : Branch) else b)).find?
        (fun b => b.name == r)
      = (l.find? (fun b => b.name == r)).map (fun b => ⟨b.name, v⟩) := by
  induction l with
  | nil => rfl
  | cons b l ih =>
    by_cases h : b.name = r
    · simp [List.find?_cons, h]
    · simp [List.find?_cons, h, ih]

theorem mem_map_branchUpd_of_ne (l : List Branch) (r : String) (v : String)
    (b : Branch) (hb : b ∈ l) (hne : b.name ≠ r) :
    b ∈ l.map (fun x => if x.name = r then (⟨x.name, v⟩ : Branch) else x) := by
  refine List.mem_map.mpr ⟨b, hb, ?_⟩
  simp [hne]

theorem find?_filter_append_self (l : List Branch) (rn : String) (v : String) :
    ((l.filter (fun b => b.name != rn)) ++ [(⟨rn, v⟩ : Branch)]).find?
        (fun b => b.name == rn) = some ⟨rn, v⟩ := by
  induction l with
  | nil => simp [List.find?_cons]
  | cons b l ih =>
    by_cases h : b.name = rn
    · simp [h, ih]
    · simp [List.filter_cons, h, List.find?_cons, ih]

-- --- C6 ---

/-- C6: the claim that the engine never throws fails: on the input
"git reset" with an attached HEAD the reset handler reaches
actualTarget.includes with actualTarget undefined, a TypeError that
escapes the engine (embedded as Except.error); the usage error is not
converted into a (snapshot unchanged, message, false) result. -/
theorem c6_reset_missing_target_throws :
    executeGitCommand envA "git reset" INITIAL_STATE = Except.error () := rfl

-- --- C1 ---

/-- C1: the claim of all-or-nothing sequence rollback fails: running
"git tag v1 && git oops" from INITIAL_STATE stops at the failing second
sub-command, reports success false, yet the snapshot published by the
sequence runner carries the tag created by the first sub-command, not the
untouched pre-sequence snapshot (whose tag list is empty). -/
theorem c1_failed_chain_publishes_partial_state :
    (handleCommandChain (fun _ => envA) "git tag v1 && git oops" INITIAL_STATE).map
        (fun x => (x.1.tags, x.2.2)) = Except.ok ([⟨"v1", "init"⟩], false) ∧
      INITIAL_STATE.tags = [] := ⟨rfl, rfl⟩

-- --- C3 ---

/-- A snapshot whose commit list holds the id "abc" before the id "ab":
the token "ab" is an exact commit id and also an ambiguous prefix. -/
def ce3 : GitState :=
  ⟨[⟨"abc", "m1", none, none, 0, "U"⟩, ⟨"ab", "m2", some "abc", none, 1, "U"⟩],
   [], [], HeadRef.commit "ab"⟩

/-- C3 counterexample: resolution of "ab" returns the first commit in list
order whose id has "ab" as a prefix, namely "abc", even though the exact
id "ab" exists and the prefix "ab" matches two commit ids; this refutes
both the exact-match priority and the unique-prefix requirement of the
claim. -/
theorem c3_prefix_resolution_counterexample :
    resolveRef ce3 "ab" = some "abc" ∧
      ce3.commits.map (fun c => c.id) = ["abc", "ab"] := ⟨rfl, rfl⟩

/-- C3 amended: reference resolution tries, in order, exact branch name,
exact tag name, first commit in list order whose id equals the token or
has the token as a prefix (no uniqueness or exact-match priority), and the
literal HEAD; the first hit wins and not-found is returned when none
match, so a branch whose name equals a commit-id prefix wins over the
commit. -/
theorem c3_resolution_order (st : GitState) (ref : String) (h0 : ref ≠ "") :
    (∀ b, st.branches.find? (fun x => x.name == ref) = some b →
      resolveRef st ref = some b.commitId) ∧
    (st.branches.find? (fun x => x.name == ref) = none →
      ∀ t, st.tags.find? (fun x => x.name == ref) = some t →
        resolveRef st ref = some t.commitId) ∧
    (st.branches.find? (fun x => x.name == ref) = none →
      st.tags.find? (fun x => x.name == ref) = none →
      ∀ c, st.commits.find? (fun c => c.id == ref || strStartsWith c.id ref) = some c →
        resolveRef st ref = some c.id) ∧
    (st.branches.find? (fun x => x.name == ref) = none →
      st.tags.find? (fun x => x.name == ref) = none →
      st.commits.find? (fun c => c.id == ref || strStartsWith c.id ref) = none →
      ref = "HEAD" → resolveRef st ref = some (getHeadCommitId st)) ∧
    (st.branches.find? (fun x => x.name == ref) = none →
      st.tags.find? (fun x => x.name == ref) = none →
      st.commits.find? (fun c => c.id == ref || strStartsWith c.id ref) = none →
      ref ≠ "HEAD" → resolveRef st ref = none) := by
  refine ⟨fun b hb => ?_, fun hb t ht => ?_, fun hb ht c hc => ?_,
    fun hb ht hc hh => ?_, fun hb ht hc hh => ?_⟩
  · simp only [resolveRef, if_neg h0, hb]
  · simp only [resolveRef, if_neg h0, hb, ht]
  · simp only [resolveRef, if_neg h0, hb, ht, hc]
  · simp only [resolveRef, if_neg h0, hb, ht, hc, if_pos hh]
  · simp only [resolveRef, if_neg h0, hb, ht, hc, if_neg hh]

/-- A snapshot in which the branch name "aa" is also a prefix of the
commit id "aa1". -/
def c3wState : GitState :=
  ⟨[⟨"aa1", "m", none, none, 0, "U"⟩], [⟨"aa", "tip"⟩], [], HeadRef.branch "aa"⟩

/-- Witness for C3: at the concrete snapshot the branch wins over the
commit-id prefix. -/
theorem c3_resolution_order_witness : resolveRef c3wState "aa" = some "tip" :=
  (c3_resolution_order c3wState "aa" (by decide)).1 ⟨"aa", "tip"⟩ rfl

-- --- C8 ---

/-- C8 counterexample: from INITIAL_STATE, "git clone u" followed by
"git checkout origin/main" is a successful command sequence that leaves
HEAD attached (type branch) to the remote-tracking branch origin/main:
the checkout handler looks the target up among all branches, including
origin-prefixed ones, and attaches rather than detaching. -/
theorem c8_remote_branch_checkout_counterexample :
    (handleCommandChain (fun _ => envA) "git clone u && git checkout origin/main"
        INITIAL_STATE).map (fun x => (x.1.head, x.2.2))
      = Except.ok (HeadRef.branch "origin/main", true) := rfl

/-- C8 amended: checkout of any token that names an existing branch —
including a branch prefixed origin/ — attaches HEAD to that branch; a
detached HEAD results only when the target matches no branch name.
Remote-tracking branches can therefore become the live attached branch. -/
theorem c8_checkout_existing_branch_attaches (env : Env) (st : GitState)
    (target : String) (br : Branch) (h0 : target ≠ "")
    (h1 : target ≠ "-b") (h2 : target ≠ "-c")
    (hfind : st.branches.find? (fun b => b.name == target) = some br) :
    executeGitParts env ["git", "checkout", target] st =
      Except.ok ⟨{ st with head := HeadRef.branch br.name },
        "Switched to branch '" ++ target ++ "'", true⟩ := by
  simp only [executeGitParts, gitCheckout, jsTruthy]
  simp [h0, h1, h2, hfind]

/-- The canned snapshot produced by the clone handler at clock 100000. -/
def c8CloneState : GitState :=
  ⟨[⟨"c82a", "Initial public release", none, none, 90000, "Origin"⟩,
    ⟨"a12b", "Update README", some "c82a", none, 95000, "Origin"⟩],
   [⟨"main", "a12b"⟩, ⟨"origin/main", "a12b"⟩], [], HeadRef.branch "main"⟩

/-- Witness for C8: checking out origin/main on the cloned snapshot
attaches HEAD to origin/main. -/
theorem c8_checkout_existing_branch_attaches_witness :
    executeGitParts envA ["git", "checkout", "origin/main"] c8CloneState =
      Except.ok ⟨{ c8CloneState with head := HeadRef.branch "origin/main" },
        "Switched to branch 'origin/main'", true⟩ :=
  c8_checkout_existing_branch_attaches envA c8CloneState "origin/main"
    ⟨"origin/main", "a12b"⟩ (by decide) (by decide) (by decide) rfl

-- --- C10 ---

theorem countP_map_rename (l : List Branch) (a n : String) (hne : a ≠ n) :
    (l.map (fun b => if b.name = a then (⟨n, b.commitId⟩ : Branch) else b)).countP
        (fun b => b.name == n)
      = l.countP (fun b => b.name == a || b.name == n) := by
  induction l with
  | nil => rfl
  | cons b l ih =>
    by_cases h : b.name = a
    · simp [List.countP_cons, h, ih, Ne.symm hne]
    · by_cases h2 : b.name = n
      · simp [List.countP_cons, h, h2, ih, Ne.symm hne]
      · simp [List.countP_cons, h, h2, ih]

theorem two_le_countP {α : Type} (p : α → Bool) (l : List α) (x y : α)
    (hx : x ∈ l) (hy : y ∈ l) (hxy : x ≠ y) (hpx : p x = true) (hpy : p y = true) :
    2 ≤ l.countP p := by
  induction l with
  | nil => simp at hx
  | cons z zs ih =>
    rcases List.mem_cons.mp hx with hxz | hxzs
    · rcases List.mem_cons.mp hy with hyz | hyzs
      · exact absurd (hxz.trans hyz.symm) hxy
      · have h1 : 0 < zs.countP p := List.countP_pos_iff.mpr ⟨y, hyzs, hpy⟩
        have hz : p z = true := hxz ▸ hpx
        simp only [List.countP_cons, hz, if_true]
        omega
    · rcases List.mem_cons.mp hy with hyz | hyzs
      · have h1 : 0 < zs.countP p := List.countP_pos_iff.mpr ⟨x, hxzs, hpx⟩
        have hz : p z = true := hyz ▸ hpy
        simp only [List.countP_cons, hz, if_true]
        omega
      · have := ih hxzs hyzs
        rw [List.countP_cons]
        omega

/-- C10: git branch -M performs no name-uniqueness check: renaming the
current branch a to an already-existing name n succeeds, re-attaches HEAD
to n, and leaves the snapshot with at least two branches named n. -/
theorem c10_branch_rename_breaks_uniqueness (env : Env) (st : GitState)
    (a n : String) (bra brn : Branch) (hhead : st.head = HeadRef.branch a)
    (hne : a ≠ n) (ha : bra ∈ st.branches) (han : bra.name = a)
    (hn : brn ∈ st.branches) (hnn : brn.name = n) :
    ∃ r, executeGitParts env ["git", "branch", "-M", n] st = Except.ok r ∧
      r.success = true ∧ r.newState.head = HeadRef.branch n ∧
      2 ≤ r.newState.branches.countP (fun b => b.name == n) := by
  have hexec : executeGitParts env ["git", "branch", "-M", n] st =
      Except.ok ⟨{ st with
          branches := st.branches.map
            (fun b => if b.name = a then (⟨n, b.commitId⟩ : Branch) else b),
          head := HeadRef.branch n },
        "Renamed branch to '" ++ n ++ "'", true⟩ := by
    simp only [executeGitParts, gitBranch, headRefName]
    simp [hhead]
  refine ⟨_, hexec, rfl, rfl, ?_⟩
  rw [countP_map_rename st.branches a n hne]
  refine two_le_countP _ _ bra brn ha hn ?_ ?_ ?_
  · intro hcontra
    rw [hcontra] at han
    exact hne (han.symm.trans hnn)
  · simp [han]
  · simp [hnn]

/-- A snapshot with HEAD attached to branch a while a branch named n
already exists. -/
def c10State : GitState :=
  ⟨[⟨"init", "Initial commit", none, none, 0, "User"⟩],
   [⟨"a", "init"⟩, ⟨"n", "init"⟩], [], HeadRef.branch "a"⟩

/-- Witness for C10 at the concrete snapshot. -/
theorem c10_branch_rename_breaks_uniqueness_witness :
    ∃ r, executeGitParts envA ["git", "branch", "-M", "n"] c10State = Except.ok r ∧
      r.success = true ∧ r.newState.head = HeadRef.branch "n" ∧
      2 ≤ r.newState.branches.countP (fun b => b.name == "n") :=
  c10_branch_rename_breaks_uniqueness envA c10State "a" "n"
    ⟨"a", "init"⟩ ⟨"n", "init"⟩ rfl (by decide) (by decide) rfl (by decide) rfl

-- --- C5 ---

theorem dispatch_push (env : Env) (st : GitState) :
    executeGitParts env ["git", "push"] st = Except.ok (gitPush st) := rfl

/-- C5: with HEAD attached to branch b, push is rejected with an unchanged
snapshot when origin/b exists, differs from the tip of b, and is not an
ancestor of it (non-fast-forward); otherwise push succeeds and advances or
creates origin/b at the tip of b, leaving commits, tags and HEAD alone. -/
theorem c5_push_fast_forward_rule (env : Env) (st : GitState) (b : String)
    (br : Branch) (hhead : st.head = HeadRef.branch b)
    (hfind : st.branches.find? (fun x => x.name == b) = some br) :
    (∀ rb, st.branches.find? (fun x => x.name == ("origin/" ++ b)) = some rb →
      isAncestor st rb.commitId br.commitId = false → rb.commitId ≠ br.commitId →
      ∃ out, executeGitParts env ["git", "push"] st = Except.ok ⟨st, out, false⟩) ∧
    (∀ rb, st.branches.find? (fun x => x.name == ("origin/" ++ b)) = some rb →
      (isAncestor st rb.commitId br.commitId = true ∨ rb.commitId = br.commitId) →
      ∃ r, executeGitParts env ["git", "push"] st = Except.ok r ∧ r.success = true ∧
        r.newState.branches.find? (fun x => x.name == ("origin/" ++ b)) =
          some ⟨"origin/" ++ b, br.commitId⟩ ∧
        r.newState.commits = st.commits ∧ r.newState.tags = st.tags ∧
        r.newState.head = st.head) ∧
    (st.branches.find? (fun x => x.name == ("origin/" ++ b)) = none →
      ∃ r, executeGitParts env ["git", "push"] st = Except.ok r ∧ r.success = true ∧
        r.newState.branches.find? (fun x => x.name == ("origin/" ++ b)) =
          some ⟨"origin/" ++ b, br.commitId⟩ ∧
        r.newState.commits = st.commits ∧ r.newState.tags = st.tags ∧
        r.newState.head = st.head) := by
  have hok2 : ∀ rb, st.branches.find? (fun x => x.name == ("origin/" ++ b)) = some rb →
      (isAncestor st rb.commitId br.commitId = true ∨ rb.commitId = br.commitId) →
      executeGitParts env ["git", "push"] st = Except.ok
        ⟨{ st with branches :=
            st.branches.filter (fun x => x.name != ("origin/" ++ b)) ++
              [⟨"origin/" ++ b, br.commitId⟩] },
         pushOkOutput b br.commitId, true⟩ := by
    intro rb hrb hok
    rw [dispatch_push]
    simp only [gitPush, headRefName, hhead, hfind, hrb]
    rcases hok with h | h
    · simp [h]
    · simp [h]
  refine ⟨fun rb hrb hanc hne => ?_, fun rb hrb hok => ?_, fun hnone => ?_⟩
  · refine ⟨pushRejectOutput b, ?_⟩
    rw [dispatch_push]
    simp only [gitPush, headRefName, hhead, hfind, hrb, hanc]
    simp [bne_iff_ne, hne]
  · exact ⟨_, hok2 rb hrb hok, rfl,
      find?_filter_append_self st.branches ("origin/" ++ b) br.commitId, rfl, rfl, rfl⟩
  · refine ⟨⟨{ st with branches :=
        st.branches.filter (fun x => x.name != ("origin/" ++ b)) ++
          [⟨"origin/" ++ b, br.commitId⟩] },
      pushOkOutput b br.commitId, true⟩, ?_, rfl,
      find?_filter_append_self st.branches ("origin/" ++ b) br.commitId, rfl, rfl, rfl⟩
    rw [dispatch_push]
    simp only [gitPush, headRefName, hhead, hfind, hnone]
    simp [hhead]

/-- A snapshot whose local main has diverged from and is behind
origin/main. -/
def c5State : GitState :=
  ⟨[⟨"1", "S", none, none, 1000, "O"⟩, ⟨"2", "W", some "1", none, 2000, "U"⟩,
    ⟨"3", "X", some "1", none, 3000, "T"⟩],
   [⟨"main", "2"⟩, ⟨"origin/main", "3"⟩], [], HeadRef.branch "main"⟩

/-- Witness for C5: the diverged push is rejected with the snapshot
unchanged. -/
theorem c5_push_fast_forward_rule_witness :
    ∃ out, executeGitParts envA ["git", "push"] c5State = Except.ok ⟨c5State, out, false⟩ :=
  (c5_push_fast_forward_rule envA c5State "main" ⟨"main", "2"⟩ rfl rfl).1
    ⟨"origin/main", "3"⟩ rfl (by decide) (by decide)

-- --- C2 ---

theorem dispatch_merge (env : Env) (ref : String) (st : GitState) :
    executeGitParts env ["git", "merge", ref] st =
      Except.ok (gitMerge env ["git", "merge", ref] st) := rfl

theorem resolveRef_empty (st : GitState) : resolveRef st "" = none := rfl

/-- C2: with HEAD attached to an existing branch b, merging a ref that
resolves to commit T is a no-op success when T is the current tip, moves b
directly to T without creating a commit when the current tip is an
ancestor of T, and otherwise appends exactly one commit with firstParent
the current tip and secondParent T and advances b to it; the command fails
with the snapshot unchanged when the ref does not resolve or HEAD is
detached. -/
theorem c2_merge_cases (env : Env) (st : GitState) (ref : String) :
    (∀ b br, st.head = HeadRef.branch b →
      st.branches.find? (fun x => x.name == b) = some br →
      ((resolveRef st ref = none →
        ∃ out, executeGitParts env ["git", "merge", ref] st =
          Except.ok ⟨st, out, false⟩) ∧
       (∀ T, resolveRef st ref = some T →
        ((T = br.commitId →
          executeGitParts env ["git", "merge", ref] st =
            Except.ok ⟨st, "Already up to date.", true⟩) ∧
         (T ≠ br.commitId → isAncestor st br.commitId T = true →
          ∃ r, executeGitParts env ["git", "merge", ref] st = Except.ok r ∧
            r.success = true ∧ r.newState.commits = st.commits ∧
            r.newState.tags = st.tags ∧ r.newState.head = st.head ∧
            r.newState.branches.find? (fun x => x.name == b) = some ⟨b, T⟩ ∧
            ∀ x ∈ st.branches, x.name ≠ b → x ∈ r.newState.branches) ∧
         (T ≠ br.commitId → isAncestor st br.commitId T = false →
          ∃ c r, executeGitParts env ["git", "merge", ref] st = Except.ok r ∧
            r.success = true ∧ r.newState.commits = st.commits ++ [c] ∧
            c.parentId = some br.commitId ∧ c.secondParentId = some T ∧
            r.newState.tags = st.tags ∧ r.newState.head = st.head ∧
            r.newState.branches.find? (fun x => x.name == b) = some ⟨b, c.id⟩))))) ∧
    (∀ cid T, st.head = HeadRef.commit cid → resolveRef st ref = some T →
      ∃ out, executeGitParts env ["git", "merge", ref] st =
        Except.ok ⟨st, out, false⟩) := by
  constructor
  · intro b br hhead hfind
    have hname : br.name = b := by
      have h := List.find?_some hfind
      simpa using h
    have hhc : getHeadCommitId st = br.commitId :=
      getHeadCommitId_of_branch st b br hhead hfind
    constructor
    · intro hres
      by_cases h0 : ref = ""
      · refine ⟨"Merge source required", ?_⟩
        rw [dispatch_merge]
        simp [gitMerge, jsTruthy, h0]
      · refine ⟨"Merge source '" ++ ref ++ "' not found", ?_⟩
        rw [dispatch_merge]
        simp [gitMerge, jsTruthy, h0, hres]
    · intro T hres
      have h0 : ref ≠ "" := by
        intro h
        rw [h, resolveRef_empty] at hres
        exact Option.noConfusion hres
      refine ⟨?_, ?_, ?_⟩
      · intro hT
        rw [dispatch_merge]
        simp [gitMerge, jsTruthy, h0, hres, hhead, hhc, hT]
      · intro hT hanc
        have hexec : executeGitParts env ["git", "merge", ref] st = Except.ok
            ⟨⟨st.commits, st.branches.map (fun x => if x.name = b then (⟨x.name, T⟩ : Branch) else x), st.tags, st.head⟩,
             "Fast-forward merge: " ++ b ++ " is now at " ++ T.take 7, true⟩ := by
          rw [dispatch_merge]
          simp [gitMerge, jsTruthy, h0, hres, hhead, hhc, hT, hanc]
        refine ⟨_, hexec, rfl, rfl, rfl, rfl, ?_, ?_⟩
        · show (st.branches.map
              (fun x => if x.name = b then (⟨x.name, T⟩ : Branch) else x)).find?
              (fun x => x.name == b) = some ⟨b, T⟩
          rw [find?_map_branchUpd, hfind]
          simp [hname]
        · intro x hx hxb
          exact mem_map_branchUpd_of_ne st.branches b T x hx hxb
      · intro hT hanc
        have hexec : executeGitParts env ["git", "merge", ref] st = Except.ok
            ⟨⟨st.commits ++ [⟨env.ids 0, "Merge " ++ ref ++ " into " ++ b, some br.commitId, some T, getNextTimestamp st env, "User"⟩], st.branches.map (fun x => if x.name = b then (⟨x.name, env.ids 0⟩ : Branch) else x), st.tags, st.head⟩,
             "Merged " ++ ref ++ " into " ++ b, true⟩ := by
          rw [dispatch_merge]
          simp [gitMerge, jsTruthy, h0, hres, hhead, hhc, hT, hanc]
        refine ⟨_, _, hexec, rfl, rfl, rfl, rfl, rfl, rfl, ?_⟩
        show (st.branches.map
            (fun x => if x.name = b then (⟨x.name, env.ids 0⟩ : Branch) else x)).find?
            (fun x => x.name == b) = some ⟨b, env.ids 0⟩
        rw [find?_map_branchUpd, hfind]
        simp [hname]
  · intro cid T hhead hres
    have h0 : ref ≠ "" := by
      intro h
      rw [h, resolveRef_empty] at hres
      exact Option.noConfusion hres
    refine ⟨"You must be on a branch to merge", ?_⟩
    rw [dispatch_merge]
    simp [gitMerge, jsTruthy, h0, hres, hhead]

/-- A snapshot where main and feature have diverged from a common root. -/
def c2State : GitState :=
  ⟨[⟨"root", "R", none, none, 0, "U"⟩, ⟨"m1", "M", some "root", none, 1000, "U"⟩,
    ⟨"f1", "F", some "root", none, 2000, "U"⟩],
   [⟨"main", "m1"⟩, ⟨"feature", "f1"⟩], [], HeadRef.branch "main"⟩

/-- Witness for C2: merging the diverged feature branch appends one merge
commit with both parents set and advances main to it. -/
theorem c2_merge_cases_witness :
    ∃ c r, executeGitParts envA ["git", "merge", "feature"] c2State = Except.ok r ∧
      r.success = true ∧ r.newState.commits = c2State.commits ++ [c] ∧
      c.parentId = some "m1" ∧ c.secondParentId = some "f1" ∧
      r.newState.tags = c2State.tags ∧ r.newState.head = c2State.head ∧
      r.newState.branches.find? (fun x => x.name == "main") = some ⟨"main", c.id⟩ :=
  ((((c2_merge_cases envA c2State "feature").1 "main" ⟨"main", "m1"⟩ rfl rfl).2
    "f1" rfl).2.2) (by decide) (by decide)

-- --- C7 ---

/-- A snapshot with HEAD on main at init and a second commit c2 that a tag
ref argument could name. -/
def c7State : GitState :=
  ⟨[⟨"init", "Initial commit", none, none, 0, "User"⟩,
    ⟨"c2", "x", some "init", none, 1000, "User"⟩],
   [⟨"main", "init"⟩], [], HeadRef.branch "main"⟩

/-- C7 counterexample: "git tag v1 c2" with a resolvable ref argument c2
still creates the tag at the current HEAD commit init — the tag handler
never reads the ref argument. -/
theorem c7_tag_ref_argument_ignored_counterexample :
    (executeGitParts envA ["git", "tag", "v1", "c2"] c7State).map
        (fun r => (r.newState.tags, r.success)) =
      Except.ok ([⟨"v1", "init"⟩], true) ∧
    resolveRef c7State "c2" = some "c2" ∧ getHeadCommitId c7State = "init" :=
  ⟨rfl, rfl, rfl⟩

theorem tags_gitRemote (parts : List String) (st : GitState) :
    (gitRemote parts st).newState.tags = st.tags := by
  dsimp only [gitRemote]
  repeat' split
  all_goals rfl

theorem tags_gitLog (st : GitState) : (gitLog st).newState.tags = st.tags := rfl

theorem tags_gitFetch (env : Env) (st : GitState) :
    (gitFetch env st).newState.tags = st.tags := by
  dsimp only [gitFetch]
  repeat' split
  all_goals rfl

theorem tags_gitPush (st : GitState) : (gitPush st).newState.tags = st.tags := by
  dsimp only [gitPush]
  repeat' split
  all_goals rfl

theorem tags_gitMerge (env : Env) (parts : List String) (st : GitState) :
    (gitMerge env parts st).newState.tags = st.tags := by
  dsimp only [gitMerge]
  repeat' split
  all_goals rfl

theorem tags_gitPull (env : Env) (st : GitState) :
    (gitPull env st).newState.tags = st.tags := by
  dsimp only [gitPull]
  split
  · exact tags_gitFetch env st
  · exact (tags_gitMerge _ _ _).trans (tags_gitFetch env st)

theorem tags_gitCommit (env : Env) (parts : List String) (st : GitState) :
    (gitCommit env parts st).newState.tags = st.tags := by
  dsimp only [gitCommit]
  repeat' split
  all_goals rfl

theorem tags_gitBranch (parts : List String) (st : GitState) :
    (gitBranch parts st).newState.tags = st.tags := by
  dsimp only [gitBranch]
  repeat' split
  all_goals rfl

theorem tags_gitCheckout (parts : List String) (st : GitState) :
    (gitCheckout parts st).newState.tags = st.tags := by
  dsimp only [gitCheckout]
  repeat' split
  all_goals rfl

theorem tags_gitReset (parts : List String) (st : GitState) (r : EngineResult)
    (h : gitReset parts st = Except.ok r) : r.newState.tags = st.tags := by
  dsimp only [gitReset] at h
  repeat' split at h
  all_goals first
    | exact Except.noConfusion h
    | (injection h with h2; subst h2; rfl)

theorem tags_gitRevert (env : Env) (parts : List String) (st : GitState) :
    (gitRevert env parts st).newState.tags = st.tags := by
  dsimp only [gitRevert]
  repeat' split
  all_goals rfl

theorem tags_gitCherryPick (env : Env) (parts : List String) (st : GitState) :
    (gitCherryPick env parts st).newState.tags = st.tags := by
  dsimp only [gitCherryPick]
  repeat' split
  all_goals rfl

theorem tags_gitRebase (env : Env) (parts : List String) (st : GitState) :
    (gitRebase env parts st).newState.tags = st.tags := by
  dsimp only [gitRebase]
  repeat' split
  all_goals rfl

theorem tags_gitTag (parts : List String) (st : GitState) :
    (gitTag parts st).newState.tags = st.tags ∨
      ∃ t, (gitTag parts st).newState.tags = st.tags ++ [t] := by
  dsimp only [gitTag]
  split
  · exact Or.inl rfl
  · exact Or.inr ⟨_, rfl⟩

theorem tags_executeGitParts (env : Env) (parts : List String) (st : GitState)
    (r : EngineResult) (h : executeGitParts env parts st = Except.ok r) :
    r.newState.tags = st.tags ∨ (∃ t, r.newState.tags = st.tags ++ [t]) ∨
      r.newState.tags = [] := by
  dsimp only [executeGitParts] at h
  by_cases h0 : parts.get? 0 ≠ some "git"
  · rw [if_pos h0] at h
    injection h with h2
    subst h2
    exact Or.inl rfl
  · rw [if_neg h0] at h
    by_cases h1 : parts.get? 1 = some "init"
    · rw [if_pos h1] at h
      injection h with h2
      subst h2
      exact Or.inr (Or.inr rfl)
    · rw [if_neg h1] at h
      by_cases h2 : parts.get? 1 = some "remote"
      · rw [if_pos h2] at h
        injection h with h2
        subst h2
        exact Or.inl (tags_gitRemote parts st)
      · rw [if_neg h2] at h
        by_cases h3 : parts.get? 1 = some "log"
        · rw [if_pos h3] at h
          injection h with h2
          subst h2
          exact Or.inl (tags_gitLog st)
        · rw [if_neg h3] at h
          by_cases h4 : parts.get? 1 = some "add"
          · rw [if_pos h4] at h
            injection h with h2
            subst h2
            exact Or.inl rfl
          · rw [if_neg h4] at h
            by_cases h5 : parts.get? 1 = some "clone"
            · rw [if_pos h5] at h
              injection h with h2
              subst h2
              exact Or.inr (Or.inr rfl)
            · rw [if_neg h5] at h
              by_cases h6 : parts.get? 1 = some "fetch"
              · rw [if_pos h6] at h
                injection h with h2
                subst h2
                exact Or.inl (tags_gitFetch env st)
              · rw [if_neg h6] at h
                by_cases h7 : parts.get? 1 = some "pull"
                · rw [if_pos h7] at h
                  injection h with h2
                  subst h2
                  exact Or.inl (tags_gitPull env st)
                · rw [if_neg h7] at h
                  by_cases h8 : parts.get? 1 = some "push"
                  · rw [if_pos h8] at h
                    injection h with h2
                    subst h2
                    exact Or.inl (tags_gitPush st)
                  · rw [if_neg h8] at h
                    by_cases h9 : parts.get? 1 = some "commit"
                    · rw [if_pos h9] at h
                      injection h with h2
                      subst h2
                      exact Or.inl (tags_gitCommit env parts st)
                    · rw [if_neg h9] at h
                      by_cases h10 : parts.get? 1 = some "branch"
                      · rw [if_pos h10] at h
                        injection h with h2
                        subst h2
                        exact Or.inl (tags_gitBranch parts st)
                      · rw [if_neg h10] at h
                        by_cases h11 : parts.get? 1 = some "checkout" ∨ parts.get? 1 = some "switch"
                        · rw [if_pos h11] at h
                          injection h with h2
                          subst h2
                          exact Or.inl (tags_gitCheckout parts st)
                        · rw [if_neg h11] at h
                          by_cases h12 : parts.get? 1 = some "merge"
                          · rw [if_pos h12] at h
                            injection h with h2
                            subst h2
                            exact Or.inl (tags_gitMerge env parts st)
                          · rw [if_neg h12] at h
                            by_cases h13 : parts.get? 1 = some "reset"
                            · rw [if_pos h13] at h
                              exact Or.inl (tags_gitReset parts st r h)
                            · rw [if_neg h13] at h
                              by_cases h14 : parts.get? 1 = some "revert"
                              · rw [if_pos h14] at h
                                injection h with h2
                                subst h2
                                exact Or.inl (tags_gitRevert env parts st)
                              · rw [if_neg h14] at h
                                by_cases h15 : parts.get? 1 = some "cherry-pick"
                                · rw [if_pos h15] at h
                                  injection h with h2
                                  subst h2
                                  exact Or.inl (tags_gitCherryPick env parts st)
                                · rw [if_neg h15] at h
                                  by_cases h16 : parts.get? 1 = some "tag"
                                  · rw [if_pos h16] at h
                                    injection h with h2
                                    subst h2
                                    rcases tags_gitTag parts st with h1 | ⟨t, h1⟩
                                    · exact Or.inl h1
                                    · exact Or.inr (Or.inl ⟨t, h1⟩)
                                  · rw [if_neg h16] at h
                                    by_cases h17 : parts.get? 1 = some "rebase"
                                    · rw [if_pos h17] at h
                                      injection h with h2
                                      subst h2
                                      exact Or.inl (tags_gitRebase env parts st)
                                    · rw [if_neg h17] at h
                                      injection h with h2
                                      subst h2
                                      exact Or.inl rfl

/-- C7 amended: git tag with a non-empty name always creates the tag at
the current HEAD commit, ignoring any ref argument; the command fails only
when the name is missing; and no command ever modifies an existing tag in
place — every command leaves the tag list unchanged, appends exactly one
new tag to it, or resets it to the empty list of a canned snapshot. -/
theorem c7_tag_created_at_head :
    (∀ env st name rest, name ≠ "" →
      executeGitParts env (["git", "tag", name] ++ rest) st =
        Except.ok ⟨{ st with tags := st.tags ++ [⟨name, getHeadCommitId st⟩] },
          "Created tag " ++ name, true⟩) ∧
    (∀ env st, executeGitParts env ["git", "tag"] st =
      Except.ok ⟨st, "Tag name required", false⟩) ∧
    (∀ env parts st r, executeGitParts env parts st = Except.ok r →
      r.newState.tags = st.tags ∨ (∃ t, r.newState.tags = st.tags ++ [t]) ∨
        r.newState.tags = []) := by
  refine ⟨fun env st name rest h => ?_, fun env st => rfl,
    fun env parts st r h => tags_executeGitParts env parts st r h⟩
  simp only [executeGitParts, gitTag, jsTruthy]
  simp [h]

/-- Witness for C7: tagging v9 on INITIAL_STATE appends one tag at the
HEAD commit. -/
theorem c7_tag_created_at_head_witness :
    executeGitParts envA (["git", "tag", "v9"] ++ []) INITIAL_STATE =
      Except.ok ⟨{ INITIAL_STATE with
          tags := INITIAL_STATE.tags ++ [⟨"v9", getHeadCommitId INITIAL_STATE⟩] },
        "Created tag " ++ "v9", true⟩ :=
  c7_tag_created_at_head.1 envA INITIAL_STATE "v9" [] (by decide)

-- --- C4 ---

theorem replayAux_length (ids : Nat → String) (t0 : Int) :
    ∀ (l : List Commit) (parent : String) (i : Nat),
      (replayAux ids t0 l parent i).length = l.length := by
  intro l
  induction l with
  | nil => intro parent i; rfl
  | cons m rest ih => intro parent i; simp [replayAux, ih]

theorem replayAux_get?_fields (ids : Nat → String) (t0 : Int) :
    ∀ (l : List Commit) (parent : String) (i k : Nat) (c : Commit),
      (replayAux ids t0 l parent i).get? k = some c →
      ∃ m, l.get? k = some m ∧ c.id = ids (i + k) ∧ c.message = m.message ∧
        c.author = m.author ∧ c.timestamp = t0 + ((i + k : Nat) : Int) ∧
        c.secondParentId = none := by
  intro l
  induction l with
  | nil => intro parent i k c h; exact Option.noConfusion h
  | cons m rest ih =>
    intro parent i k c h
    cases k with
    | zero =>
      simp only [replayAux, List.get?_cons_zero, Option.some.injEq] at h
      subst h
      exact ⟨m, rfl, by simp, rfl, rfl, by simp, rfl⟩
    | succ k =>
      simp only [replayAux, List.get?_cons_succ] at h
      obtain ⟨m2, hm2, hid, hmsg, hauth, hts, hsp⟩ := ih (ids i) (i + 1) k c h
      have harith : i + 1 + k = i + (k + 1) := by omega
      exact ⟨m2, by simpa using hm2, by rw [hid, harith], hmsg, hauth,
        by rw [hts, harith], hsp⟩

theorem replayAux_head_parent (ids : Nat → String) (t0 : Int)
    (l : List Commit) (parent : String) (i : Nat) (c : Commit)
    (h : (replayAux ids t0 l parent i).get? 0 = some c) :
    c.parentId = some parent := by
  cases l with
  | nil => exact Option.noConfusion h
  | cons m rest =>
    simp only [replayAux, List.get?_cons_zero, Option.some.injEq] at h
    subst h
    rfl

theorem replayAux_chain (ids : Nat → String) (t0 : Int) :
    ∀ (l : List Commit) (parent : String) (i k : Nat) (c c' : Commit),
      (replayAux ids t0 l parent i).get? k = some c →
      (replayAux ids t0 l parent i).get? (k + 1) = some c' →
      c'.parentId = some c.id := by
  intro l
  induction l with
  | nil => intro parent i k c c' h _; exact Option.noConfusion h
  | cons m rest ih =>
    intro parent i k c c' h h'
    cases k with
    | zero =>
      simp only [replayAux, List.get?_cons_zero, Option.some.injEq] at h
      simp only [replayAux, List.get?_cons_succ] at h'
      have := replayAux_head_parent ids t0 rest (ids i) (i + 1) c' h'
      rw [this, ← h]
    | succ k =>
      simp only [replayAux, List.get?_cons_succ] at h h'
      exact ih (ids i) (i + 1) k c c' h h'

theorem dispatch_rebase (env : Env) (baseRef : String) (st : GitState) :
    executeGitParts env ["git", "rebase", baseRef] st =
      Except.ok (gitRebase env ["git", "rebase", baseRef] st) := rfl

/-- C4: with HEAD attached to existing branch b and a resolvable rebase
target, let moves be the commits of the current branch not reachable from
the target (first-parent walk, oldest first) and newCs their replay.  When
moves is empty the command is a no-op success; otherwise exactly
moves.length brand-new commits are appended after the untouched original
commit list, carrying the original messages and authors in order with
strictly increasing timestamps, the first parented on the target and each
next on its predecessor, and the current branch advances to the last
replayed commit. -/
theorem c4_rebase_replays_divergent_commits (env : Env) (st : GitState)
    (baseRef baseId b : String) (br : Branch) (moves newCs : List Commit)
    (hhead : st.head = HeadRef.branch b)
    (hfind : st.branches.find? (fun x => x.name == b) = some br)
    (hres : resolveRef st baseRef = some baseId)
    (hmoves : commitsToMove st baseId = moves)
    (hnew : replayAux env.ids (getNextTimestamp st env) moves baseId 0 = newCs) :
    (moves = [] → executeGitParts env ["git", "rebase", baseRef] st =
      Except.ok ⟨st, "Already up to date.", true⟩) ∧
    (moves ≠ [] → ∃ r, executeGitParts env ["git", "rebase", baseRef] st =
        Except.ok r ∧ r.success = true ∧
      r.newState.commits = st.commits ++ newCs ∧
      newCs.length = moves.length ∧
      (∀ k c m, newCs.get? k = some c → moves.get? k = some m →
        c.message = m.message ∧ c.author = m.author ∧ c.id = env.ids k ∧
        c.timestamp = getNextTimestamp st env + (k : Int)) ∧
      (∀ c, newCs.get? 0 = some c → c.parentId = some baseId) ∧
      (∀ k c c', newCs.get? k = some c → newCs.get? (k + 1) = some c' →
        c'.parentId = some c.id) ∧
      (∀ k j c c', k < j → newCs.get? k = some c → newCs.get? j = some c' →
        c.timestamp < c'.timestamp) ∧
      ((∀ i, i < moves.length → env.ids i ∉ st.commits.map (fun x => x.id)) →
        ∀ c ∈ newCs, c.id ∉ st.commits.map (fun x => x.id)) ∧
      r.newState.branches.find? (fun x => x.name == b) =
        some ⟨b, match newCs.getLast? with | some c => c.id | none => baseId⟩ ∧
      r.newState.head = st.head ∧ r.newState.tags = st.tags) := by
  have hname : br.name = b := by
    have h := List.find?_some hfind
    simpa using h
  have h0 : baseRef ≠ "" := by
    intro h
    rw [h, resolveRef_empty] at hres
    exact Option.noConfusion hres
  constructor
  · intro hempty
    rw [dispatch_rebase]
    simp [gitRebase, jsTruthy, h0, hres, hhead, hmoves, hempty]
  · intro hne
    have hexec : executeGitParts env ["git", "rebase", baseRef] st = Except.ok
        ⟨⟨st.commits ++ newCs, st.branches.map (fun x => if x.name = b then (⟨x.name, match newCs.getLast? with | some c => c.id | none => baseId⟩ : Branch) else x), st.tags, st.head⟩,
         "Rebased refs/heads/" ++ b, true⟩ := by
      rw [dispatch_rebase]
      simp [gitRebase, jsTruthy, h0, hres, hhead, hmoves, hne, hnew]
    have hfields : ∀ k c, newCs.get? k = some c →
        ∃ m, moves.get? k = some m ∧ c.id = env.ids k ∧ c.message = m.message ∧
          c.author = m.author ∧
          c.timestamp = getNextTimestamp st env + ((k : Nat) : Int) := by
      intro k c hc
      rw [← hnew] at hc
      obtain ⟨m, hm, hid, hmsg, hauth, hts, _⟩ :=
        replayAux_get?_fields env.ids (getNextTimestamp st env) moves baseId 0 k c hc
      exact ⟨m, hm, by simpa using hid, hmsg, hauth, by simpa using hts⟩
    refine ⟨_, hexec, rfl, rfl, ?_, ?_, ?_, ?_, ?_, ?_, ?_, rfl, rfl⟩
    · rw [← hnew]
      exact replayAux_length env.ids (getNextTimestamp st env) moves baseId 0
    · intro k c m hc hm
      obtain ⟨m2, hm2, hid, hmsg, hauth, hts⟩ := hfields k c hc
      rw [hm] at hm2
      injection hm2 with hm2
      subst hm2
      exact ⟨hmsg, hauth, hid, hts⟩
    · intro c hc
      rw [← hnew] at hc
      exact replayAux_head_parent env.ids (getNextTimestamp st env) moves baseId 0 c hc
    · intro k c c' hc hc'
      rw [← hnew] at hc hc'
      exact replayAux_chain env.ids (getNextTimestamp st env) moves baseId 0 k c c' hc hc'
    · intro k j c c' hkj hc hc'
      obtain ⟨_, _, _, _, _, hts⟩ := hfields k c hc
      obtain ⟨_, _, _, _, _, hts'⟩ := hfields j c' hc'
      rw [hts, hts']
      omega
    · intro hfresh c hc
      obtain ⟨k, hk⟩ := List.mem_iff_get?.mp hc
      obtain ⟨m, hm, hid, _, _, _⟩ := hfields k c hk
      have hklt : k < moves.length := by
        by_contra hcon
        rw [List.get?_eq_none.mpr (by omega)] at hm
        exact Option.noConfusion hm
      rw [hid]
      exact hfresh k hklt
    · show (st.branches.map (fun x => if x.name = b then (⟨x.name, match newCs.getLast? with | some c => c.id | none => baseId⟩ : Branch) else x)).find? (fun x => x.name == b) = some ⟨b, match newCs.getLast? with | some c => c.id | none => baseId⟩
      rw [find?_map_branchUpd, hfind]
      simp [hname]

/-- A snapshot whose main branch holds two commits not reachable from the
dev base. -/
def c4State : GitState :=
  ⟨[⟨"root", "R", none, none, 0, "U"⟩, ⟨"d1", "D", some "root", none, 500, "U"⟩,
    ⟨"a1", "A", some "root", none, 1000, "U"⟩, ⟨"b1", "B", some "a1", none, 2000, "U"⟩],
   [⟨"main", "b1"⟩, ⟨"dev", "d1"⟩], [], HeadRef.branch "main"⟩

def c4Moves : List Commit :=
  [⟨"a1", "A", some "root", none, 1000, "U"⟩, ⟨"b1", "B", some "a1", none, 2000, "U"⟩]

def c4NewCs : List Commit :=
  [⟨"id0", "A", some "d1", none, 100000, "U"⟩, ⟨"id1", "B", some "id0", none, 100001, "U"⟩]

/-- Witness for C4: rebasing the two divergent commits of main onto dev
appends their two replays after the untouched originals. -/
theorem c4_rebase_replays_divergent_commits_witness :
    ∃ r, executeGitParts envA ["git", "rebase", "dev"] c4State = Except.ok r ∧
      r.success = true ∧ r.newState.commits = c4State.commits ++ c4NewCs ∧
      c4NewCs.length = c4Moves.length := by
  obtain ⟨r, h1, h2, h3, h4, _⟩ := (c4_rebase_replays_divergent_commits envA c4State
    "dev" "d1" "main" ⟨"main", "b1"⟩ c4Moves c4NewCs rfl rfl rfl rfl rfl).2 (by decide)
  exact ⟨r, h1, h2, h3, h4⟩


-- --- C9 ---

theorem length_filter_erase (P : List String) (hnd : P.Nodup) (c : String)
    (visited : List String) (hcP : c ∈ P) (hcv : c ∉ visited) :
    (P.filter (fun x => x ∉ c :: visited)).length + 1 =
      (P.filter (fun x => x ∉ visited)).length := by
  induction P with
  | nil => exact absurd hcP (List.not_mem_nil c)
  | cons p P' ih =>
    have hpP' : p ∉ P' := (List.nodup_cons.mp hnd).1
    have hnd' : P'.Nodup := (List.nodup_cons.mp hnd).2
    by_cases hc : c = p
    · subst hc
      have htail : P'.filter (fun x => decide (x ∉ c :: visited)) =
          P'.filter (fun x => decide (x ∉ visited)) := by
        apply List.filter_congr
        intro x hx
        have hxc : x ≠ c := fun h => hpP' (h ▸ hx)
        simp [List.mem_cons, hxc]
      rw [List.filter_cons_of_neg, List.filter_cons_of_pos, htail, List.length_cons]
      · simp [hcv]
      · simp
    · have hcP' : c ∈ P' := by
        rcases List.mem_cons.mp hcP with h | h
        · exact absurd h hc
        · exact h
      have hih := ih hnd' hcP'
      have hpc : p ≠ c := fun h => hc h.symm
      by_cases hp : p ∈ visited
      · rw [List.filter_cons_of_neg, List.filter_cons_of_neg]
        · exact hih
        · simp [hp]
        · simp [List.mem_cons_of_mem c hp]
      · rw [List.filter_cons_of_pos, List.filter_cons_of_pos]
        · simp only [List.length_cons]
          omega
        · simp [hp]
        · simp [List.mem_cons, hpc, hp]

theorem parents_mem_parentIdsOf (commits : List Commit) (c : Commit) (hc : c ∈ commits) :
    ∀ p ∈ (match c.parentId with | some q => [q] | none => []) ++
        (match c.secondParentId with | some q => [q] | none => []),
      p ∈ parentIdsOf commits := by
  intro p hp
  exact List.mem_flatMap.mpr ⟨c, hc, hp⟩

theorem isAncestorAux_isSome (commits : List Commit) (anc : String) (P : List String)
    (hnd : P.Nodup) (hsub : ∀ p ∈ parentIdsOf commits, p ∈ P) :
    ∀ fuel queue visited, (∀ q ∈ queue, q ∈ P) →
      1 + queue.length + 2 * (P.filter (fun x => x ∉ visited)).length ≤ fuel →
      (isAncestorAux commits anc fuel queue visited).isSome = true := by
  intro fuel
  induction fuel with
  | zero =>
    intro queue visited hq hb
    exact absurd hb (by omega)
  | succ fuel ih =>
    intro queue visited hq hb
    cases queue with
    | nil => rfl
    | cons curr rest =>
      simp only [isAncestorAux]
      by_cases hv : curr ∈ visited
      · rw [if_pos hv]
        apply ih rest visited (fun q hq2 => hq q (List.mem_cons_of_mem curr hq2))
        simp only [List.length_cons] at hb
        omega
      · rw [if_neg hv]
        by_cases ha : curr = anc
        · rw [if_pos ha]
          rfl
        · rw [if_neg ha]
          have hcP : curr ∈ P := hq curr (List.mem_cons_self curr rest)
          have herase := length_filter_erase P hnd curr visited hcP hv
          cases hfind : commits.find? (fun c => c.id == curr) with
          | none =>
            apply ih rest (curr :: visited)
              (fun q hq2 => hq q (List.mem_cons_of_mem curr hq2))
            simp only [List.length_cons] at hb
            omega
          | some c =>
            have hcmem : c ∈ commits := List.mem_of_find?_eq_some hfind
            apply ih
            · intro q hq2
              rcases List.mem_append.mp hq2 with h | h
              · exact hq q (List.mem_cons_of_mem curr h)
              · exact hsub q (parents_mem_parentIdsOf commits c hcmem q h)
            · have hps : ((match c.parentId with | some q => [q] | none => []) ++
                  (match c.secondParentId with | some q => [q] | none => [])).length ≤ 2 := by
                cases c.parentId <;> cases c.secondParentId <;> simp
              simp only [List.length_append] at hps
              simp only [List.length_append, List.length_cons] at hb ⊢
              omega

/-- C9: isAncestor is reflexive (every id, in particular every commit id
present in the snapshot, is its own ancestor), and the visited-set guarded
breadth-first walk always finishes within the ancestorFuel bound on every
snapshot and argument pair — including diamond topologies where both
parent edges converge — so the embedded walk never runs out of fuel and
the source loop never revisits a node or diverges. -/
theorem c9_isAncestor_reflexive_and_total :
    (∀ (st : GitState) (x : String), isAncestor st x x = true) ∧
    (∀ (st : GitState) (a b : String),
      (isAncestorAux st.commits a (ancestorFuel st.commits b) [b] []).isSome = true) := by
  constructor
  · intro st x
    simp [isAncestor]
  · intro st a b
    apply isAncestorAux_isSome st.commits a ((b :: parentIdsOf st.commits).dedup)
      (List.nodup_dedup _)
      (fun p hp => List.mem_dedup.mpr (List.mem_cons_of_mem b hp))
    · intro q hq
      rcases List.mem_cons.mp hq with h | h
      · subst h
        exact List.mem_dedup.mpr (List.mem_cons_self _ _)
      · exact absurd h (List.not_mem_nil q)
    · have hfull : ((b :: parentIdsOf st.commits).dedup).filter
          (fun x => x ∉ ([] : List String)) = (b :: parentIdsOf st.commits).dedup := by
        apply List.filter_eq_self.mpr
        intro x _
        simp
      rw [hfull, ancestorFuel]
      simp only [List.length_cons, List.length_nil]
      omega
